import Mathlib

/-!
Verification of the classical image-processing pipeline of
`stand_image_processing.py` (cutting-inserts detection): the statistics
stage (`ExamineArc`), the line-intersection geometry of `findArcPoint`,
the edge-point extraction of `findLinesPoints` / `searchingBox`, and the
custom `polarTransform`.

Modelling conventions: Python floats are modelled as exact rationals;
Python runtime faults (`ZeroDivisionError`, numpy `LinAlgError`, numpy
`IndexError`) are modelled with `Except PyFault`; images are grids of
natural-number intensities addressed as `px row col`.
-/

/-- Faults that the modelled Python/numpy fragment can raise.  None of them
is caught around the code they occur in (the only `try` in `findArcPoint`
wraps the `polarTransform` call). -/
inductive PyFault where
  | zeroDivisionError
  | linAlgError
  | indexError
deriving DecidableEq, Repr

/-- Python `int(...)` applied to a real number: truncation toward zero. -/
def pyInt (q : ℚ) : ℤ := if 0 ≤ q then Rat.floor q else -Rat.floor (-q)

/-- `PX2MM = 580/4`, the physical-to-pixel scale factor (source line 22). -/
def PX2MM : ℚ := 580 / 4

/-- `MAX_DIM = 137`, max radius of the cutting insert in px (line 23). -/
def MAX_DIM : ℚ := 137

/-- `MIN_DIM = 128`, min radius of the cutting insert in px (line 24). -/
def MIN_DIM : ℚ := 128

/-- `STD_ERROR = 1.5`, max std error for the insert edge in px (line 25). -/
def STD_ERROR : ℚ := 3 / 2

namespace ExamineArc

/-- `ExamineArc.srednia` (lines 292-294): `sum(pts) / float(len(pts))`.
On an empty list Python raises `ZeroDivisionError` from the division. -/
def srednia (pts : List ℚ) : Except PyFault ℚ :=
  if pts.length = 0 then .error .zeroDivisionError
  else .ok (pts.sum / (pts.length : ℚ))

/-- The in-place ascending sort `pts.sort()` performed by `mediana`. -/
def pySort (pts : List ℚ) : List ℚ := pts.mergeSort (fun a b => decide (a ≤ b))

/-- `ExamineArc.mediana` (lines 296-302).  `pts.sort()` mutates the caller's
list, so the embedding returns the median together with the list the caller
is left holding afterwards.  The even case is the Python slice
`sum(pts[half - 1 : half + 1]) / 2.0` with `half = len(pts) // 2`; the odd
case is `pts[len(pts) // 2]`. -/
def mediana (pts : List ℚ) : ℚ × List ℚ :=
  let s := pySort pts
  (if s.length % 2 = 0 then
    (((s.drop (s.length / 2 - 1)).take 2).sum) / 2
  else
    s.getD (s.length / 2) 0, s)

/-- `ExamineArc.wariancja` (lines 304-308): sum of squared deviations from
`m` divided by `len(pts)` (population variance; `ZeroDivisionError` on an
empty list). -/
def wariancja (pts : List ℚ) (m : ℚ) : Except PyFault ℚ :=
  if pts.length = 0 then .error .zeroDivisionError
  else .ok ((pts.map fun x => (x - m) ^ 2).sum / (pts.length : ℚ))

/-- The statistics/classification tail of `findArcPoint` (lines 243-250):
`s = srednia(pts_y)`; `mediana(pts_y)` sorts `pts_y` in place;
`o = odchylenie(pts_y, s) = sqrt(wariancja(pts_y, s))` is then computed on
the sorted list; the verdict is `(s < MAX_DIM and s > MIN_DIM) and
o < STD_ERROR` (`true` = the `OK` branch).  Because `sqrt` is strictly
increasing and both sides of `o < STD_ERROR` are nonnegative, the test is
evaluated through the square, `wariancja < STD_ERROR ^ 2`; the claim
theorem restates it through `Real.sqrt`. -/
def arcVerdict (pts : List ℚ) : Except PyFault Bool :=
  match srednia pts with
  | .error e => .error e
  | .ok s =>
    match wariancja (mediana pts).2 s with
    | .error e => .error e
    | .ok w =>
      .ok (decide (s < MAX_DIM) && decide (MIN_DIM < s) &&
        decide (w < STD_ERROR ^ 2))

/-- Modelled from the spec's words (§4.5), for comparison with `mediana`:
the midpoint of the ascending sorted sequence, averaging the two central
values when the length is even. -/
def medianSpec (pts : List ℚ) : ℚ :=
  let s := pySort pts
  if pts.length % 2 = 0 then
    (s.getD (pts.length / 2 - 1) 0 + s.getD (pts.length / 2) 0) / 2
  else s.getD (pts.length / 2) 0

end ExamineArc

/-- Sum of a two-element slice `(l.drop k).take 2` in terms of the two
entries, provided both indices are in range. -/
theorem take_two_drop_sum (l : List ℚ) (k : ℕ) (hk : k + 1 < l.length) :
    ((l.drop k).take 2).sum = l.getD k 0 + l.getD (k + 1) 0 := by
  have hk0 : k < l.length := Nat.lt_of_succ_lt hk
  rw [List.drop_eq_getElem_cons hk0, List.take_succ_cons,
    List.drop_eq_getElem_cons hk, List.take_succ_cons, List.take_zero]
  simp [List.getD_eq_getElem?_getD, List.getElem?_eq_getElem, hk0, hk]

/-- The sorted list produced inside `mediana` is a permutation of the input
with the same length. -/
theorem pySort_perm (pts : List ℚ) : (ExamineArc.pySort pts).Perm pts :=
  List.mergeSort_perm pts _

theorem pySort_length (pts : List ℚ) :
    (ExamineArc.pySort pts).length = pts.length :=
  (pySort_perm pts).length_eq

/-- C3: for every non-empty radial-position sequence the classifier computes
the arithmetic mean `sum / len`, the median as the sorted-sequence midpoint
(averaging the two central values at even length), the population variance
(sum of squared deviations divided by `len`, not `len - 1`), and the
verdict is PASS (`Except.ok true`) iff `MIN_DIM < mean < MAX_DIM` and the
standard deviation `Real.sqrt variance` is `< STD_ERROR`; otherwise FAIL. -/
theorem claim3_examine_arc_statistics (pts : List ℚ) (hne : pts ≠ []) :
    ExamineArc.srednia pts = .ok (pts.sum / (pts.length : ℚ)) ∧
    (ExamineArc.mediana pts).1 = ExamineArc.medianSpec pts ∧
    ExamineArc.wariancja (ExamineArc.mediana pts).2 (pts.sum / (pts.length : ℚ)) =
      .ok ((pts.map fun x => (x - pts.sum / (pts.length : ℚ)) ^ 2).sum /
        (pts.length : ℚ)) ∧
    (ExamineArc.arcVerdict pts = .ok true ↔
      (MIN_DIM < pts.sum / (pts.length : ℚ) ∧
       pts.sum / (pts.length : ℚ) < MAX_DIM ∧
       Real.sqrt
         (((pts.map fun x => (x - pts.sum / (pts.length : ℚ)) ^ 2).sum /
           (pts.length : ℚ) : ℚ)) < (STD_ERROR : ℚ))) := by
  have hlen : pts.length ≠ 0 := fun h => hne (List.length_eq_zero.mp h)
  have hmean : ExamineArc.srednia pts = .ok (pts.sum / (pts.length : ℚ)) := by
    simp [ExamineArc.srednia, hlen]
  set s : ℚ := pts.sum / (pts.length : ℚ) with hs
  -- the mutated list and its relation to the input
  have hsnd : (ExamineArc.mediana pts).2 = ExamineArc.pySort pts := rfl
  have hperm : (ExamineArc.pySort pts).Perm pts := pySort_perm pts
  have hls : (ExamineArc.pySort pts).length = pts.length := pySort_length pts
  -- variance over the sorted list equals variance over the input
  have hvar : ExamineArc.wariancja (ExamineArc.mediana pts).2 s =
      .ok ((pts.map fun x => (x - s) ^ 2).sum / (pts.length : ℚ)) := by
    rw [hsnd]
    have hmapsum : ((ExamineArc.pySort pts).map fun x => (x - s) ^ 2).sum =
        (pts.map fun x => (x - s) ^ 2).sum :=
      (hperm.map fun x => (x - s) ^ 2).sum_eq
    simp [ExamineArc.wariancja, hls, hlen, hmapsum]
  -- median agrees with the spec formula
  have hmed : (ExamineArc.mediana pts).1 = ExamineArc.medianSpec pts := by
    simp only [ExamineArc.mediana, ExamineArc.medianSpec, hls]
    by_cases hpar : pts.length % 2 = 0
    · have hpos : 0 < pts.length := Nat.pos_of_ne_zero hlen
      have hge2 : 2 ≤ pts.length := by omega
      have hhalf : 1 ≤ pts.length / 2 := by omega
      have hidx : pts.length / 2 - 1 + 1 = pts.length / 2 := by omega
      have hlt : pts.length / 2 - 1 + 1 < (ExamineArc.pySort pts).length := by
        rw [hls]; omega
      simp only [hpar, if_true]
      rw [take_two_drop_sum _ _ hlt, hidx]
    · simp only [hpar, if_false]
  refine ⟨hmean, hmed, hvar, ?_⟩
  -- the PASS verdict
  have hw0 : (0 : ℚ) ≤ (pts.map fun x => (x - s) ^ 2).sum / (pts.length : ℚ) := by
    apply div_nonneg
    · apply List.sum_nonneg
      intro x hx
      rcases List.mem_map.mp hx with ⟨y, _, rfl⟩
      positivity
    · positivity
  set w : ℚ := (pts.map fun x => (x - s) ^ 2).sum / (pts.length : ℚ) with hwdef
  have hverdict : ExamineArc.arcVerdict pts =
      .ok (decide (s < MAX_DIM) && decide (MIN_DIM < s) &&
        decide (w < STD_ERROR ^ 2)) := by
    unfold ExamineArc.arcVerdict
    rw [hmean]
    simp only [hvar]
  rw [hverdict]
  have hsqrt : Real.sqrt ((w : ℚ) : ℝ) < ((STD_ERROR : ℚ) : ℝ) ↔
      w < STD_ERROR ^ 2 := by
    rw [Real.sqrt_lt' (by norm_num [STD_ERROR])]
    constructor
    · intro h; exact_mod_cast h
    · intro h; exact_mod_cast h
  constructor
  · intro h
    have hb : (decide (s < MAX_DIM) && decide (MIN_DIM < s) &&
        decide (w < STD_ERROR ^ 2)) = true := by
      injection h
    simp only [Bool.and_eq_true, decide_eq_true_eq] at hb
    exact ⟨hb.1.2, hb.1.1, hsqrt.mpr hb.2⟩
  · rintro ⟨h1, h2, h3⟩
    have hb : (decide (s < MAX_DIM) && decide (MIN_DIM < s) &&
        decide (w < STD_ERROR ^ 2)) = true := by
      simp only [Bool.and_eq_true, decide_eq_true_eq]
      exact ⟨⟨h2, h1⟩, hsqrt.mp h3⟩
    rw [hb]

/-- Witness for C3 at the concrete sequence `[129, 131]`: non-empty, mean
`130`, median `130`, variance `1`, and the verdict is PASS. -/
theorem claim3_examine_arc_statistics_witness :
    ([129, 131] : List ℚ) ≠ [] ∧
    (ExamineArc.srednia [129, 131] =
        .ok (([129, 131] : List ℚ).sum / (([129, 131] : List ℚ).length : ℚ)) ∧
      (ExamineArc.mediana [129, 131]).1 = ExamineArc.medianSpec [129, 131] ∧
      ExamineArc.wariancja (ExamineArc.mediana [129, 131]).2
          (([129, 131] : List ℚ).sum / (([129, 131] : List ℚ).length : ℚ)) =
        .ok ((([129, 131] : List ℚ).map fun x =>
            (x - ([129, 131] : List ℚ).sum / (([129, 131] : List ℚ).length : ℚ)) ^ 2).sum /
          (([129, 131] : List ℚ).length : ℚ)) ∧
      (ExamineArc.arcVerdict [129, 131] = .ok true ↔
        (MIN_DIM < ([129, 131] : List ℚ).sum / (([129, 131] : List ℚ).length : ℚ) ∧
         ([129, 131] : List ℚ).sum / (([129, 131] : List ℚ).length : ℚ) < MAX_DIM ∧
         Real.sqrt
           (((([129, 131] : List ℚ).map fun x =>
               (x - ([129, 131] : List ℚ).sum / (([129, 131] : List ℚ).length : ℚ)) ^ 2).sum /
             (([129, 131] : List ℚ).length : ℚ) : ℚ)) < (STD_ERROR : ℚ)))) :=
  ⟨by simp, claim3_examine_arc_statistics [129, 131] (by simp)⟩

/-- C8: on the empty input sequence the statistics stage does not fail with
any `InsufficientDataError` (the source defines no such error); `srednia`
performs `sum([]) / float(len([]))` and the division by zero raises an
unhandled `ZeroDivisionError`. -/
theorem claim8_empty_stats_zero_division :
    ExamineArc.srednia ([] : List ℚ) = .error .zeroDivisionError := rfl

/-- C10: `mediana` sorts its list argument in place, so after the statistics
stage the caller's sequence is the ascending sort of its previous contents:
a permutation of the input, sorted ascending, and in general (witnessed by
`[2, 1]`) different from the input. -/
theorem claim10_mediana_mutates_input (pts : List ℚ) :
    (ExamineArc.mediana pts).2 = ExamineArc.pySort pts ∧
    ((ExamineArc.mediana pts).2).Perm pts ∧
    List.Sorted (· ≤ ·) (ExamineArc.mediana pts).2 ∧
    (ExamineArc.mediana [2, 1]).2 ≠ [2, 1] := by
  have hsnd : ∀ qs : List ℚ, (ExamineArc.mediana qs).2 = ExamineArc.pySort qs :=
    fun qs => rfl
  refine ⟨hsnd pts, ?_, ?_, ?_⟩
  · rw [hsnd pts]; exact pySort_perm pts
  · rw [hsnd pts]
    have h := @List.sorted_mergeSort ℚ (fun a b : ℚ => decide (a ≤ b))
      (fun a b c hab hbc => by
        simp only [decide_eq_true_eq] at *
        exact le_trans hab hbc)
      (fun a b => by
        simp only [Bool.or_eq_true, decide_eq_true_eq]
        exact le_total a b)
      pts
    exact h.imp fun {a b} hab => by simpa using hab
  · rw [hsnd [2, 1]]
    have : ExamineArc.pySort [2, 1] = [1, 2] := by
      norm_num [ExamineArc.pySort, List.mergeSort]
    rw [this]
    intro h
    have h1 : (1 : ℚ) = 2 := by injection h
    norm_num at h1

/-! ## Line-intersection geometry of `findArcPoint` (lines 162-211) -/

/-- A fitted line as `cv.fitLine` returns it and as `findArcPoint` unpacks
it at lines 163-164: a direction vector `(vx, vy)` and a point `(x, y)`. -/
structure LineRep where
  vx : ℚ
  vy : ℚ
  x : ℚ
  y : ℚ

/-- The four scalar equations of the linear system assembled at lines
165-166, row by row: `A · (t1, t2, xs, ys) = B` with
`A = [[vx1,0,-1,0], [vy1,0,0,-1], [0,vx2,-1,0], [0,vy2,0,-1]]` and
`B = (-x1, -y1, -x2, -y2)`. -/
def solvesSystem (l1 l2 : LineRep) (t1 t2 xs ys : ℚ) : Prop :=
  l1.vx * t1 - xs = -l1.x ∧
  l1.vy * t1 - ys = -l1.y ∧
  l2.vx * t2 - xs = -l2.x ∧
  l2.vy * t2 - ys = -l2.y

/-- Determinant of the 4x4 coefficient matrix `A` (cofactor expansion along
the first row): `vy1 * vx2 - vx1 * vy2`.  It vanishes exactly when the two
direction vectors are parallel. -/
def detA (l1 l2 : LineRep) : ℚ := l1.vy * l2.vx - l1.vx * l2.vy

/-- Lines 167-168: `R = np.linalg.inv(A).dot(B); xs, ys = R[2:]`.  On a
singular matrix — exactly `detA = 0` in exact arithmetic — `np.linalg.inv`
raises `LinAlgError`; the source performs no determinant or condition
pre-check and nothing in `findArcPoint` catches the fault.  On a regular
matrix the unique solution of the system is produced
(`solveIntersection_solves`). -/
def solveIntersection (l1 l2 : LineRep) : Except PyFault (ℚ × ℚ) :=
  if detA l1 l2 = 0 then .error .linAlgError
  else
    let t1 := ((l2.x - l1.x) * l2.vy - (l2.y - l1.y) * l2.vx) /
      (l1.vx * l2.vy - l1.vy * l2.vx)
    .ok (l1.x + t1 * l1.vx, l1.y + t1 * l1.vy)

/-- Faithfulness of `solveIntersection` to `np.linalg.inv(A).dot(B)`: when
`A` is regular the returned pair is the `(xs, ys)` part of the unique
solution of the assembled system. -/
theorem solveIntersection_solves (l1 l2 : LineRep) (h : detA l1 l2 ≠ 0) :
    ∃ t1 t2 xs ys, solveIntersection l1 l2 = .ok (xs, ys) ∧
      solvesSystem l1 l2 t1 t2 xs ys ∧
      ∀ t1' t2' xs' ys', solvesSystem l1 l2 t1' t2' xs' ys' →
        xs' = xs ∧ ys' = ys := by
  have hD : l1.vx * l2.vy - l1.vy * l2.vx ≠ 0 := by
    intro h0
    apply h
    unfold detA
    linarith
  set D := l1.vx * l2.vy - l1.vy * l2.vx with hDdef
  set t1 := ((l2.x - l1.x) * l2.vy - (l2.y - l1.y) * l2.vx) / D with ht1
  set t2 := ((l2.x - l1.x) * l2.vy - (l2.y - l1.y) * l2.vx) / D * l1.vx / l2.vx
    with ht2junk
  clear_value t2
  refine ⟨t1, ?_, l1.x + t1 * l1.vx, l1.y + t1 * l1.vy, ?_, ?_, ?_⟩
  · exact ((l2.x - l1.x) * l1.vy - (l2.y - l1.y) * l1.vx) / D
  · unfold solveIntersection
    rw [if_neg h]
  · refine ⟨by ring, by ring, ?_, ?_⟩
    · rw [ht1]
      field_simp
      ring
    · rw [ht1]
      field_simp
      ring
  · rintro t1' t2' xs' ys' ⟨h1, h2, h3, h4⟩
    have hE : t1' * D =
        (l2.x - l1.x) * l2.vy - (l2.y - l1.y) * l2.vx := by
      rw [hDdef]
      linear_combination l2.vy * h1 - l2.vx * h2 - l2.vy * h3 + l2.vx * h4
    have ht1' : t1' = t1 := by
      rw [ht1, eq_div_iff hD]
      exact hE
    rw [ht1'] at h1 h2
    constructor
    · linarith
    · linarith

/-- C2: for parallel input lines — `vx1 * vy2 = vy1 * vx2`, making the
coefficient matrix of the parametric system singular — the intersection
step raises the numpy `LinAlgError` from `np.linalg.inv`.  The program
contains no `ParallelLines` error value and no determinant/condition check
before the inversion; the fault is unhandled (the only `try` in
`findArcPoint` is around `polarTransform`). -/
theorem claim2_parallel_lines_linalg_fault (l1 l2 : LineRep)
    (hpar : l1.vx * l2.vy = l1.vy * l2.vx) :
    solveIntersection l1 l2 = .error .linAlgError := by
  unfold solveIntersection
  rw [if_pos]
  unfold detA
  linarith

/-- Witness for C2 at two concrete horizontal parallel lines. -/
theorem claim2_parallel_lines_linalg_fault_witness :
    ((⟨1, 0, 0, 0⟩ : LineRep).vx * (⟨1, 0, 0, 10⟩ : LineRep).vy =
      (⟨1, 0, 0, 0⟩ : LineRep).vy * (⟨1, 0, 0, 10⟩ : LineRep).vx) ∧
    solveIntersection ⟨1, 0, 0, 0⟩ ⟨1, 0, 0, 10⟩ = .error .linAlgError :=
  ⟨by norm_num, claim2_parallel_lines_linalg_fault _ _ (by norm_num)⟩

/-! ## Quadrant-to-rotation-angle assignment (lines 206-211) -/

/-- Input of the rotation-angle chain: the chosen arc centre `(xc, yc)` and
the lines crossing point `(xs, ys)`. -/
structure QuadIn where
  xc : ℚ
  yc : ℚ
  xs : ℚ
  ys : ℚ

/-- The explicit branches of the `if/elif` chain at lines 208-210, in
source order: `xc>xs and yc<ys -> 90`, `elif xc>xs and yc>ys -> 180`,
`elif xc<xs and yc>ys -> 270`.  There is no branch for the quadrant
`xc<xs and yc<ys`. -/
def rotBranches : List ((QuadIn → Bool) × ℚ) :=
  [(fun q => decide (q.xc > q.xs) && decide (q.yc < q.ys), 90),
   (fun q => decide (q.xc > q.xs) && decide (q.yc > q.ys), 180),
   (fun q => decide (q.xc < q.xs) && decide (q.yc > q.ys), 270)]

/-- The branch of the chain that fires, if any. -/
def firedBranch (q : QuadIn) : Option ℚ :=
  (rotBranches.find? fun b => b.1 q).map Prod.snd

/-- The rotation angle `ang` of lines 207-211: the initialisation
`ang = 0` followed by the chain — the fired branch's angle if any branch
fires, else the fallthrough default `0`. -/
def rotAngle (q : QuadIn) : ℚ := (firedBranch q).getD 0

/-- Faithfulness of the branch-list representation to the literal
`if/elif` chain of lines 207-210. -/
theorem rotAngle_eq_chain (q : QuadIn) :
    rotAngle q =
      if q.xc > q.xs ∧ q.yc < q.ys then 90
      else if q.xc > q.xs ∧ q.yc > q.ys then 180
      else if q.xc < q.xs ∧ q.yc > q.ys then 270
      else 0 := by
  by_cases h1 : q.xs < q.xc <;> by_cases h2 : q.yc < q.ys <;>
    by_cases h3 : q.ys < q.yc <;> by_cases h4 : q.xc < q.xs <;>
    first
      | (exfalso; linarith)
      | simp [rotAngle, firedBranch, rotBranches, List.find?, h1, h2, h3, h4]

/-- C4 counterexample: at `xc = 0, yc = 0, xs = 1, ys = 1` — the quadrant
`xc < xs`, `yc < ys`, with both coordinates strictly different — no
explicit branch of the chain fires, and the angle `0` arises only from the
fallthrough default. -/
theorem claim4_quadrant_fallthrough_cex :
    (⟨0, 0, 1, 1⟩ : QuadIn).xc ≠ (⟨0, 0, 1, 1⟩ : QuadIn).xs ∧
    (⟨0, 0, 1, 1⟩ : QuadIn).yc ≠ (⟨0, 0, 1, 1⟩ : QuadIn).ys ∧
    firedBranch ⟨0, 0, 1, 1⟩ = none ∧
    rotAngle ⟨0, 0, 1, 1⟩ = 0 := by
  refine ⟨by norm_num, by norm_num, ?_, ?_⟩ <;>
    norm_num [rotAngle, firedBranch, rotBranches, List.find?]

/-- C4 (amended): whenever `xc ≠ xs` and `yc ≠ ys` the assigned rotation
angle is one of the four cardinal values, and exactly the quadrant
`xc < xs ∧ yc < ys` is served by no explicit branch: there the angle `0`
is only the fallthrough default, while the other three quadrants each have
an explicitly assigned angle (90, 180, 270). -/
theorem claim4_rotation_angle_amended (q : QuadIn)
    (h1 : q.xc ≠ q.xs) (h2 : q.yc ≠ q.ys) :
    (rotAngle q = 0 ∨ rotAngle q = 90 ∨ rotAngle q = 180 ∨ rotAngle q = 270) ∧
    (firedBranch q = none ↔ q.xc < q.xs ∧ q.yc < q.ys) ∧
    (q.xs < q.xc ∧ q.yc < q.ys → firedBranch q = some 90) ∧
    (q.xs < q.xc ∧ q.ys < q.yc → firedBranch q = some 180) ∧
    (q.xc < q.xs ∧ q.ys < q.yc → firedBranch q = some 270) := by
  rcases h1.lt_or_lt with hx | hx <;> rcases h2.lt_or_lt with hy | hy
  · have nx : ¬ q.xs < q.xc := lt_asymm hx
    have ny : ¬ q.ys < q.yc := lt_asymm hy
    simp [rotAngle, firedBranch, rotBranches, List.find?, hx, hy, nx, ny]
  · have nx : ¬ q.xs < q.xc := lt_asymm hx
    have ny : ¬ q.yc < q.ys := lt_asymm hy
    simp [rotAngle, firedBranch, rotBranches, List.find?, hx, hy, nx, ny]
  · have nx : ¬ q.xc < q.xs := lt_asymm hx
    have ny : ¬ q.ys < q.yc := lt_asymm hy
    simp [rotAngle, firedBranch, rotBranches, List.find?, hx, hy, nx, ny]
  · have nx : ¬ q.xc < q.xs := lt_asymm hx
    have ny : ¬ q.yc < q.ys := lt_asymm hy
    simp [rotAngle, firedBranch, rotBranches, List.find?, hx, hy, nx, ny]

/-- Witness for C4 (amended) at `xc = 2, yc = 0, xs = 1, ys = 1`: first
quadrant, explicit branch, angle 90. -/
theorem claim4_rotation_angle_amended_witness :
    (⟨2, 0, 1, 1⟩ : QuadIn).xc ≠ (⟨2, 0, 1, 1⟩ : QuadIn).xs ∧
    (⟨2, 0, 1, 1⟩ : QuadIn).yc ≠ (⟨2, 0, 1, 1⟩ : QuadIn).ys ∧
    ((rotAngle ⟨2, 0, 1, 1⟩ = 0 ∨ rotAngle ⟨2, 0, 1, 1⟩ = 90 ∨
        rotAngle ⟨2, 0, 1, 1⟩ = 180 ∨ rotAngle ⟨2, 0, 1, 1⟩ = 270) ∧
      (firedBranch ⟨2, 0, 1, 1⟩ = none ↔
        (⟨2, 0, 1, 1⟩ : QuadIn).xc < (⟨2, 0, 1, 1⟩ : QuadIn).xs ∧
        (⟨2, 0, 1, 1⟩ : QuadIn).yc < (⟨2, 0, 1, 1⟩ : QuadIn).ys) ∧
      ((⟨2, 0, 1, 1⟩ : QuadIn).xs < (⟨2, 0, 1, 1⟩ : QuadIn).xc ∧
          (⟨2, 0, 1, 1⟩ : QuadIn).yc < (⟨2, 0, 1, 1⟩ : QuadIn).ys →
        firedBranch ⟨2, 0, 1, 1⟩ = some 90) ∧
      ((⟨2, 0, 1, 1⟩ : QuadIn).xs < (⟨2, 0, 1, 1⟩ : QuadIn).xc ∧
          (⟨2, 0, 1, 1⟩ : QuadIn).ys < (⟨2, 0, 1, 1⟩ : QuadIn).yc →
        firedBranch ⟨2, 0, 1, 1⟩ = some 180) ∧
      ((⟨2, 0, 1, 1⟩ : QuadIn).xc < (⟨2, 0, 1, 1⟩ : QuadIn).xs ∧
          (⟨2, 0, 1, 1⟩ : QuadIn).ys < (⟨2, 0, 1, 1⟩ : QuadIn).yc →
        firedBranch ⟨2, 0, 1, 1⟩ = some 270)) :=
  ⟨by norm_num, by norm_num,
    claim4_rotation_angle_amended _ (by norm_num) (by norm_num)⟩

/-! ## Candidate arc-centre selection (lines 179-196) -/

/-- The four candidate arc centres of lines 181-186: the sign combinations
`[[vx,vy], [-vx,vy], [-vx,-vy], [vx,-vy]]` scaled by `k` and added to the
crossing point `(xs, ys)`. -/
def candidates (xs ys vx vy k : ℚ) : List (ℚ × ℚ) :=
  [(xs + vx * k, ys + vy * k),
   (xs + -vx * k, ys + vy * k),
   (xs + -vx * k, ys + -vy * k),
   (xs + vx * k, ys + -vy * k)]

/-- The selection loop of lines 189-195, abstracted over the ordered type
of the distances: `min_dist` starts at the sentinel (`9999` in the source),
`properArc` starts unassigned (`none`; reading it unassigned after the
loop is a Python `NameError`), and every index whose distance is strictly
below the running minimum becomes the current selection. -/
def chooseMinAux {α : Type} [LinearOrder α] :
    List α → α → Option ℕ → ℕ → Option ℕ
  | [], _, best, _ => best
  | d :: ds, m, best, i =>
    if d < m then chooseMinAux ds d (some i) (i + 1)
    else chooseMinAux ds m best (i + 1)

/-- The squared Euclidean distances of the four candidates to the frame
centre `(w/2, h/2)` (line 192; `img_cx` is the width, `img_cy` the
height).  The source compares `math.sqrt` of these values. -/
def candDistsSq (w h xs ys vx vy k : ℚ) : List ℚ :=
  (candidates xs ys vx vy k).map fun c =>
    (c.1 - w / 2) ^ 2 + (c.2 - h / 2) ^ 2

/-- `properArc` after the loop of lines 189-195.  The source compares the
square roots of the squared distances against the sentinel `9999`; since
the square root is strictly monotone, the identical selection results from
comparing the squares against `9999 ^ 2` (`properArcIdx_eq_sqrt_selection`). -/
def properArcIdx (w h xs ys vx vy k : ℚ) : Option ℕ :=
  chooseMinAux (candDistsSq w h xs ys vx vy k) (9999 ^ 2) none 0

/-- Replacing every distance by its square root and the threshold by its
square root leaves the selection loop's result unchanged. -/
theorem chooseMinAux_sqrt (ds : List ℚ) :
    ∀ (m : ℚ) (best : Option ℕ) (i : ℕ), (∀ d ∈ ds, 0 ≤ d) → 0 ≤ m →
      chooseMinAux (ds.map fun d => Real.sqrt ((d : ℚ) : ℝ))
        (Real.sqrt ((m : ℚ) : ℝ)) best i = chooseMinAux ds m best i := by
  induction ds with
  | nil => intro m best i _ _; rfl
  | cons d ds ih =>
    intro m best i hds hm
    have hd0 : (0 : ℚ) ≤ d := hds d (List.mem_cons_self d ds)
    have hiff : Real.sqrt ((d : ℚ) : ℝ) < Real.sqrt ((m : ℚ) : ℝ) ↔ d < m := by
      rw [Real.sqrt_lt_sqrt_iff (by exact_mod_cast hd0)]
      exact_mod_cast Iff.rfl
    simp only [List.map_cons, chooseMinAux]
    by_cases hlt : d < m
    · rw [if_pos (hiff.mpr hlt), if_pos hlt]
      exact ih d (some i) (i + 1) (fun e he => hds e (List.mem_cons_of_mem d he)) hd0
    · rw [if_neg (fun hc => hlt (hiff.mp hc)), if_neg hlt]
      exact ih m best (i + 1) (fun e he => hds e (List.mem_cons_of_mem d he)) hm

/-- Faithfulness of `properArcIdx` to the source loop: running the loop on
the real square-root distances with the sentinel `9999` selects the same
index. -/
theorem properArcIdx_eq_sqrt_selection (w h xs ys vx vy k : ℚ) :
    chooseMinAux
      ((candDistsSq w h xs ys vx vy k).map fun d => Real.sqrt ((d : ℚ) : ℝ))
      (9999 : ℝ) none 0 = properArcIdx w h xs ys vx vy k := by
  have h9999 : (9999 : ℝ) = Real.sqrt (((9999 : ℚ) ^ 2 : ℚ) : ℝ) := by
    push_cast
    rw [Real.sqrt_sq (by norm_num)]
  rw [h9999, properArcIdx]
  apply chooseMinAux_sqrt
  · intro d hd
    rcases List.mem_map.mp hd with ⟨c, _, rfl⟩
    positivity
  · positivity

/-- Minimality of the index chosen by the loop on an explicit 4-element
distance list, provided some distance beats the sentinel. -/
theorem chooseMin4_spec (d0 d1 d2 d3 M : ℚ)
    (h : d0 < M ∨ d1 < M ∨ d2 < M ∨ d3 < M) :
    ∃ i, chooseMinAux [d0, d1, d2, d3] M none 0 = some i ∧
      [d0, d1, d2, d3].getD i 0 ≤ d0 ∧ [d0, d1, d2, d3].getD i 0 ≤ d1 ∧
      [d0, d1, d2, d3].getD i 0 ≤ d2 ∧ [d0, d1, d2, d3].getD i 0 ≤ d3 := by
  simp only [chooseMinAux]
  split_ifs <;>
    first
      | (exfalso; rcases h with h | h | h | h <;> linarith)
      | (refine ⟨_, rfl, ?_, ?_, ?_, ?_⟩ <;>
          simp only [List.getD_cons_zero, List.getD_cons_succ] <;> linarith)

/-- C5 counterexample: with a 0x0 frame and crossing point (20000, 20000),
all four candidate centres lie at (squared) distance at least `9999 ^ 2`
from the frame centre, so the loop never assigns `properArc` and no
candidate at all is selected (the source would then crash on the unbound
`properArc`). -/
theorem claim5_far_candidates_cex :
    properArcIdx 0 0 20000 20000 1 1 1 = none := by
  norm_num [properArcIdx, candDistsSq, candidates, chooseMinAux]

/-- C5 (amended): provided at least one candidate lies strictly within the
sentinel distance `9999` of the frame centre (equivalently, its squared
distance is below `9999 ^ 2`), the loop selects an index whose candidate
minimises the Euclidean distance — both the squared distance and its
square root — over all four candidates.  Without that proviso no index is
assigned (`claim5_far_candidates_cex`). -/
theorem claim5_closest_candidate_amended (w h xs ys vx vy k : ℚ)
    (hnear : ∃ d ∈ candDistsSq w h xs ys vx vy k, d < 9999 ^ 2) :
    ∃ i, properArcIdx w h xs ys vx vy k = some i ∧
      ∀ d ∈ candDistsSq w h xs ys vx vy k,
        (candDistsSq w h xs ys vx vy k).getD i 0 ≤ d ∧
        Real.sqrt (((candDistsSq w h xs ys vx vy k).getD i 0 : ℚ) : ℝ) ≤
          Real.sqrt ((d : ℚ) : ℝ) := by
  have hform : candDistsSq w h xs ys vx vy k =
      [(xs + vx * k - w / 2) ^ 2 + (ys + vy * k - h / 2) ^ 2,
       (xs + -vx * k - w / 2) ^ 2 + (ys + vy * k - h / 2) ^ 2,
       (xs + -vx * k - w / 2) ^ 2 + (ys + -vy * k - h / 2) ^ 2,
       (xs + vx * k - w / 2) ^ 2 + (ys + -vy * k - h / 2) ^ 2] := by
    simp [candDistsSq, candidates]
  rw [hform] at hnear ⊢
  rw [properArcIdx, hform]
  simp only [List.mem_cons, List.not_mem_nil, or_false, exists_eq_or_imp,
    exists_eq_left] at hnear
  obtain ⟨i, hsel, h0, h1, h2, h3⟩ := chooseMin4_spec _ _ _ _ _ hnear
  refine ⟨i, hsel, ?_⟩
  intro d hd
  have hle : [(xs + vx * k - w / 2) ^ 2 + (ys + vy * k - h / 2) ^ 2,
      (xs + -vx * k - w / 2) ^ 2 + (ys + vy * k - h / 2) ^ 2,
      (xs + -vx * k - w / 2) ^ 2 + (ys + -vy * k - h / 2) ^ 2,
      (xs + vx * k - w / 2) ^ 2 + (ys + -vy * k - h / 2) ^ 2].getD i 0 ≤ d := by
    simp only [List.mem_cons, List.not_mem_nil, or_false] at hd
    rcases hd with rfl | rfl | rfl | rfl
    · exact h0
    · exact h1
    · exact h2
    · exact h3
  exact ⟨hle, Real.sqrt_le_sqrt (by exact_mod_cast hle)⟩

/-- Witness for C5 (amended) at a frame of 1000x1000, crossing point
(500, 500), unit direction sums and offset 1: all candidates are near the
centre, and the selected index minimises the distance. -/
theorem claim5_closest_candidate_amended_witness :
    (∃ d ∈ candDistsSq 1000 1000 500 500 1 1 1, d < 9999 ^ 2) ∧
    (∃ i, properArcIdx 1000 1000 500 500 1 1 1 = some i ∧
      ∀ d ∈ candDistsSq 1000 1000 500 500 1 1 1,
        (candDistsSq 1000 1000 500 500 1 1 1).getD i 0 ≤ d ∧
        Real.sqrt (((candDistsSq 1000 1000 500 500 1 1 1).getD i 0 : ℚ) : ℝ) ≤
          Real.sqrt ((d : ℚ) : ℝ)) :=
  ⟨by norm_num [candDistsSq, candidates],
    claim5_closest_candidate_amended 1000 1000 500 500 1 1 1
      (by norm_num [candDistsSq, candidates])⟩

/-! ## Images and the edge-point scan of `findLinesPoints` (lines 72-110) -/

/-- A grayscale raster of `rows x cols` intensities, addressed as
`px row col`; only indices with `row < rows` and `col < cols` are
meaningful. -/
structure Img where
  rows : ℕ
  cols : ℕ
  px : ℕ → ℕ → ℕ

/-- `cv.flip(a, 1)`: horizontal flip, `dst[r][c] = src[r][cols-1-c]`. -/
def Img.flipH (a : Img) : Img :=
  ⟨a.rows, a.cols, fun r c => a.px r (a.cols - 1 - c)⟩

/-- `cv.rotate(a, cv.ROTATE_90_CLOCKWISE)`:
`dst[i][j] = src[rows-1-j][i]`, with the shape transposed. -/
def Img.rotCW (a : Img) : Img :=
  ⟨a.cols, a.rows, fun i j => a.px (a.rows - 1 - j) i⟩

/-- `cv.rotate(a, cv.ROTATE_90_COUNTERCLOCKWISE)`:
`dst[i][j] = src[j][cols-1-i]`, with the shape transposed. -/
def Img.rotCCW (a : Img) : Img :=
  ⟨a.cols, a.rows, fun i j => a.px j (a.cols - 1 - i)⟩

/-- `np.flatnonzero(roi[r])`: the ascending column indices of the nonzero
pixels of row `r`. -/
def Img.nonzeroCols (a : Img) (r : ℕ) : List ℕ :=
  (List.range a.cols).filter fun c => a.px r c != 0

/-- Lines 92-97: `drawing` starts as the zero raster of the same shape and
receives a 255 at the first nonzero column of each row that passes the
`if any(non_zero_values)` test.  Python's `any` over an array of column
indices is truthiness of the indices themselves: the test holds iff some
recorded index is itself nonzero (a row whose only edge pixel sits at
column 0 is skipped). -/
def Img.mkDrawing (a : Img) : Img :=
  ⟨a.rows, a.cols, fun r c =>
    if ((a.nonzeroCols r).any fun k => k != 0) = true ∧
        (a.nonzeroCols r).head? = some c
    then 255 else 0⟩

/-- `cv.findNonZero(drawing)` (line 107): the nonzero pixel positions as
`(x, y) = (col, row)` pairs in row-major order, or Python `None` —
modelled `none` — when the raster has no nonzero pixel. -/
def Img.findNonZero (a : Img) : Option (List (ℕ × ℕ)) :=
  let pts := (List.range a.rows).flatMap fun r =>
    ((List.range a.cols).filter fun c => a.px r c != 0).map fun c => (c, r)
  if pts = [] then none else some pts

/-- The forward rotate/flip of lines 85-89, normalising the scan direction
so that it becomes "leftmost nonzero pixel in each row". -/
def fwdTransform (d : ℤ × ℤ) (a : Img) : Img :=
  let a1 := if d.1 = -1 then a.flipH else a
  if d.2 ≠ 0 then
    let b := a1.rotCW
    if d.2 = -1 then b.flipH else b
  else a1

/-- The inverse rotate/flip of lines 99-103, mapping the recorded
first-edge pixels back into the base (Region-local) coordinates. -/
def bwdTransform (d : ℤ × ℤ) (a : Img) : Img :=
  let a1 := if d.1 = -1 then a.flipH else a
  if d.2 ≠ 0 then (if d.2 = -1 then a1.flipH else a1).rotCCW
  else a1

/-- `findLinesPoints` (lines 72-110) from the binary edge map onward: the
pixel-level preprocessing of lines 79-81 (`cv.morphologyEx` opening
followed by `cv.Canny`) is abstracted as the function `pre` that produces
the binary edge map; the direction normalisation, the per-row
first-nonzero scan, the inverse normalisation and `cv.findNonZero` are
modelled exactly. -/
def findLinesPoints (pre : Img → Img) (roi : Img) (d : ℤ × ℤ) :
    Option (List (ℕ × ℕ)) :=
  (bwdTransform d (fwdTransform d (pre roi)).mkDrawing).findNonZero

/-- The `None` check of `searchingBox` (lines 129-141): on `None` print and
return the sentinel `(-1, -1, -1, -1)`; otherwise fit a line (the
`cv.fitLine` call is abstracted as `fit`) and translate its anchor point by
the region origin `(ox, oy)`. -/
def searchingBoxTail (fit : List (ℕ × ℕ) → ℚ × ℚ × ℚ × ℚ) (ox oy : ℚ)
    (pts : Option (List (ℕ × ℕ))) : ℚ × ℚ × ℚ × ℚ :=
  match pts with
  | none => (-1, -1, -1, -1)
  | some ps =>
    let l := fit ps
    (l.1, l.2.1, l.2.2.1 + ox, l.2.2.2 + oy)

/-- An image all of whose in-range pixels are zero. -/
def Img.zeroOn (a : Img) : Prop :=
  ∀ r c, r < a.rows → c < a.cols → a.px r c = 0

theorem Img.zeroOn.flipH {a : Img} (h : a.zeroOn) : a.flipH.zeroOn := by
  intro r c hr hc
  simp only [Img.flipH] at hr hc ⊢
  exact h r (a.cols - 1 - c) hr (by omega)

theorem Img.zeroOn.rotCW {a : Img} (h : a.zeroOn) : a.rotCW.zeroOn := by
  intro r c hr hc
  simp only [Img.rotCW] at hr hc ⊢
  exact h (a.rows - 1 - c) r (by omega) hr

theorem Img.zeroOn.rotCCW {a : Img} (h : a.zeroOn) : a.rotCCW.zeroOn := by
  intro r c hr hc
  simp only [Img.rotCCW] at hr hc ⊢
  exact h c (a.cols - 1 - r) hc (by omega)

theorem Img.zeroOn.mkDrawing {a : Img} (h : a.zeroOn) : a.mkDrawing.zeroOn := by
  intro r c hr hc
  simp only [Img.mkDrawing] at hr hc ⊢
  rw [if_neg]
  rintro ⟨-, hhead⟩
  have hmem : c ∈ a.nonzeroCols r := List.mem_of_mem_head? (by rw [hhead]; rfl)
  have hpx := List.of_mem_filter hmem
  have hcc : c ∈ List.range a.cols := List.mem_of_mem_filter hmem
  rw [h r c hr (List.mem_range.mp hcc)] at hpx
  simp at hpx

theorem Img.zeroOn.findNonZero_none {a : Img} (h : a.zeroOn) :
    a.findNonZero = none := by
  unfold Img.findNonZero
  rw [if_pos]
  rw [List.flatMap_eq_nil_iff]
  intro r hr
  have hfil : ((List.range a.cols).filter fun c => a.px r c != 0) = [] := by
    rw [List.filter_eq_nil_iff]
    intro c hc
    simp [h r c (List.mem_range.mp hr) (List.mem_range.mp hc)]
  rw [hfil]
  rfl

theorem fwdTransform_zeroOn {a : Img} (d : ℤ × ℤ) (h : a.zeroOn) :
    (fwdTransform d a).zeroOn := by
  unfold fwdTransform
  by_cases h1 : d.1 = -1 <;> by_cases h2 : d.2 ≠ 0 <;>
    by_cases h3 : d.2 = -1 <;>
    simp only [h1, h2, h3, ne_eq, if_true, if_false, ite_true, ite_false,
      eq_self_iff_true, not_true, not_false_iff, not_false_eq_true] <;>
    first
      | exact h.flipH.rotCW.flipH
      | exact h.flipH.rotCW
      | exact h.rotCW.flipH
      | exact h.rotCW
      | exact h.flipH
      | exact h

theorem bwdTransform_zeroOn {a : Img} (d : ℤ × ℤ) (h : a.zeroOn) :
    (bwdTransform d a).zeroOn := by
  unfold bwdTransform
  by_cases h1 : d.1 = -1 <;> by_cases h2 : d.2 ≠ 0 <;>
    by_cases h3 : d.2 = -1 <;>
    simp only [h1, h2, h3, ne_eq, if_true, if_false, ite_true, ite_false,
      eq_self_iff_true, not_true, not_false_iff, not_false_eq_true] <;>
    first
      | exact h.flipH.flipH.rotCCW
      | exact h.flipH.rotCCW
      | exact h.rotCCW
      | exact h.flipH
      | exact h

/-- C6 counterexample: on an all-zero 2x2 edge map scanned in direction
(0, 1) the extractor returns Python `None` — the null sentinel — and not
the empty point sequence `some []`; the claim's "empty PointSet, a normal
value, not a sentinel of a different type" fails on the code. -/
theorem claim6_none_not_empty_pointset_cex :
    findLinesPoints id ⟨2, 2, fun _ _ => 0⟩ (0, 1) = none ∧
    findLinesPoints id ⟨2, 2, fun _ _ => 0⟩ (0, 1) ≠ some [] := by
  constructor
  · decide
  · decide

/-- C6 (amended): when the binary edge map contains no edge pixel in any
row, `findLinesPoints` returns Python `None` (what `cv.findNonZero`
returns on the all-zero drawing) — a null sentinel rather than an empty
point sequence — and `searchingBox` tests exactly for `None` and returns
the local-failure sentinel `(-1, -1, -1, -1)` for the current line
search. -/
theorem claim6_no_edges_none_amended (pre : Img → Img) (roi : Img)
    (d : ℤ × ℤ) (fit : List (ℕ × ℕ) → ℚ × ℚ × ℚ × ℚ) (ox oy : ℚ)
    (h : (pre roi).zeroOn) :
    findLinesPoints pre roi d = none ∧
    searchingBoxTail fit ox oy (findLinesPoints pre roi d) =
      (-1, -1, -1, -1) := by
  have hz : (bwdTransform d (fwdTransform d (pre roi)).mkDrawing).zeroOn :=
    bwdTransform_zeroOn d (fwdTransform_zeroOn d h).mkDrawing
  have hnone : findLinesPoints pre roi d = none := hz.findNonZero_none
  exact ⟨hnone, by rw [hnone]; rfl⟩

/-- Witness for C6 (amended) at the all-zero 2x2 image, direction (0, 1),
a constant line fitter and region origin (0, 0). -/
theorem claim6_no_edges_none_amended_witness :
    (Img.zeroOn (id ⟨2, 2, fun _ _ => 0⟩)) ∧
    (findLinesPoints id ⟨2, 2, fun _ _ => 0⟩ (0, 1) = none ∧
     searchingBoxTail (fun _ => (0, 0, 0, 0)) 0 0
       (findLinesPoints id ⟨2, 2, fun _ _ => 0⟩ (0, 1)) = (-1, -1, -1, -1)) :=
  ⟨fun _ _ _ _ => rfl,
    claim6_no_edges_none_amended id ⟨2, 2, fun _ _ => 0⟩ (0, 1)
      (fun _ => (0, 0, 0, 0)) 0 0 (fun _ _ _ _ => rfl)⟩

/-- A valid `Direction`: each component in -1/0/1 and exactly one component
nonzero.  The four such values are (1, 0), (-1, 0), (0, 1), (0, -1). -/
def validDir (d : ℤ × ℤ) : Prop :=
  (d.1 = -1 ∨ d.1 = 0 ∨ d.1 = 1) ∧ (d.2 = -1 ∨ d.2 = 0 ∨ d.2 = 1) ∧
  ((d.1 = 0 ∧ d.2 ≠ 0) ∨ (d.1 ≠ 0 ∧ d.2 = 0))

/-- A nonzero pixel of the per-row drawing comes from a nonzero pixel of
the scanned image at the same position. -/
theorem Img.mkDrawing_px_ne_zero {a : Img} {r c : ℕ}
    (h : a.mkDrawing.px r c ≠ 0) : a.px r c ≠ 0 := by
  simp only [Img.mkDrawing] at h
  by_cases hcond : ((a.nonzeroCols r).any fun k => k != 0) = true ∧
      (a.nonzeroCols r).head? = some c
  · obtain ⟨-, hhead⟩ := hcond
    have hmem : c ∈ a.nonzeroCols r := List.mem_of_mem_head? (by rw [hhead]; rfl)
    have hpx := List.of_mem_filter hmem
    simpa using hpx
  · rw [if_neg hcond] at h
    exact absurd rfl h

/-- C7: for every valid direction the inverse rotate/flip sequence of lines
99-103 exactly undoes the forward rotate/flip of lines 85-89: the
composite preserves the shape and every in-range pixel of the edge map,
and a pixel recorded by the per-row first-nonzero scan in the transformed
map comes back, after the inverse transform, at its original Region-local
coordinates — wherever the inverse-transformed drawing is nonzero the
original edge map is nonzero at that very position. -/
theorem claim7_scan_roundtrip_identity (a : Img) (d : ℤ × ℤ) (i j : ℕ)
    (hd : validDir d) (hi : i < a.rows) (hj : j < a.cols) :
    (bwdTransform d (fwdTransform d a)).rows = a.rows ∧
    (bwdTransform d (fwdTransform d a)).cols = a.cols ∧
    (bwdTransform d (fwdTransform d a)).px i j = a.px i j ∧
    ((bwdTransform d (fwdTransform d a).mkDrawing).px i j ≠ 0 →
      a.px i j ≠ 0) := by
  obtain ⟨dx, dy⟩ := d
  have hc : (dx = 1 ∧ dy = 0) ∨ (dx = -1 ∧ dy = 0) ∨
      (dx = 0 ∧ dy = 1) ∨ (dx = 0 ∧ dy = -1) := by
    rcases hd with ⟨h1, h2, h3⟩
    simp only at h1 h2 h3
    omega
  rcases hc with ⟨rfl, rfl⟩ | ⟨rfl, rfl⟩ | ⟨rfl, rfl⟩ | ⟨rfl, rfl⟩
  · -- direction (1, 0): both transforms are the identity
    exact ⟨rfl, rfl, rfl, fun h => Img.mkDrawing_px_ne_zero h⟩
  · -- direction (-1, 0): horizontal flip, undone by the same flip
    have hj' : a.cols - 1 - (a.cols - 1 - j) = j := by omega
    refine ⟨rfl, rfl, ?_, ?_⟩
    · show a.px i (a.cols - 1 - (a.cols - 1 - j)) = a.px i j
      rw [hj']
    · intro h
      have h2 : (a.flipH).px i (a.cols - 1 - j) ≠ 0 :=
        Img.mkDrawing_px_ne_zero h
      have h3 : a.px i (a.cols - 1 - (a.cols - 1 - j)) ≠ 0 := h2
      rwa [hj'] at h3
  · -- direction (0, 1): clockwise rotation, undone by counterclockwise
    have hi' : a.rows - 1 - (a.rows - 1 - i) = i := by omega
    refine ⟨rfl, rfl, ?_, ?_⟩
    · show a.px (a.rows - 1 - (a.rows - 1 - i)) j = a.px i j
      rw [hi']
    · intro h
      have h2 : (a.rotCW).px j (a.rows - 1 - i) ≠ 0 :=
        Img.mkDrawing_px_ne_zero h
      have h3 : a.px (a.rows - 1 - (a.rows - 1 - i)) j ≠ 0 := h2
      rwa [hi'] at h3
  · -- direction (0, -1): rotation plus flip, undone by flip plus rotation
    have hnest : a.rows - 1 - (a.rows - 1 - (a.rows - 1 - (a.rows - 1 - i))) =
        i := by omega
    refine ⟨rfl, rfl, ?_, ?_⟩
    · show a.px
        (a.rows - 1 - (a.rows - 1 - (a.rows - 1 - (a.rows - 1 - i)))) j =
        a.px i j
      rw [hnest]
    · intro h
      have h2 : ((a.rotCW).flipH).px j (a.rows - 1 - (a.rows - 1 - i)) ≠ 0 :=
        Img.mkDrawing_px_ne_zero h
      have h3 : a.px
          (a.rows - 1 - (a.rows - 1 - (a.rows - 1 - (a.rows - 1 - i)))) j ≠
          0 := h2
      rwa [hnest] at h3

/-- A concrete 2x2 edge map with a single edge pixel at row 0, column 1. -/
def testEdgeImg : Img := ⟨2, 2, fun r c => if r = 0 ∧ c = 1 then 5 else 0⟩

/-- Witness for C7 at the concrete edge map `testEdgeImg`, direction
(0, 1) and pixel (0, 1). -/
theorem claim7_scan_roundtrip_identity_witness :
    validDir (0, 1) ∧ 0 < testEdgeImg.rows ∧ 1 < testEdgeImg.cols ∧
    ((bwdTransform (0, 1) (fwdTransform (0, 1) testEdgeImg)).rows =
        testEdgeImg.rows ∧
      (bwdTransform (0, 1) (fwdTransform (0, 1) testEdgeImg)).cols =
        testEdgeImg.cols ∧
      (bwdTransform (0, 1) (fwdTransform (0, 1) testEdgeImg)).px 0 1 =
        testEdgeImg.px 0 1 ∧
      ((bwdTransform (0, 1) (fwdTransform (0, 1) testEdgeImg).mkDrawing).px
          0 1 ≠ 0 →
        testEdgeImg.px 0 1 ≠ 0)) :=
  ⟨⟨by decide, by decide, by decide⟩, by decide, by decide,
    claim7_scan_roundtrip_identity testEdgeImg (0, 1) 0 1
      ⟨by decide, by decide, by decide⟩ (by decide) (by decide)⟩

/-! ## The polar transform (lines 255-284) -/

/-- Ceiling of a rational, through `Rat.floor`. -/
def qceil (q : ℚ) : ℤ := -Rat.floor (-q)

/-- `np.arange(0, theta, theta_inc)` for a positive bound and step: the
values `m * theta_inc` for `0 <= m < ceil(theta / theta_inc)`; empty when
the bound or the step is nonpositive. -/
def arange (theta theta_inc : ℚ) : List ℚ :=
  if 0 < theta ∧ 0 < theta_inc then
    (List.range (qceil (theta / theta_inc)).toNat).map
      fun (m : ℕ) => (m : ℚ) * theta_inc
  else []

/-- Python indexing into an axis of length `n`: `0 <= i < n` addresses
`i`, a negative `-n <= i < 0` wraps to `n + i`, anything else raises
`IndexError`. -/
def pyIndex (n : ℕ) (i : ℤ) : Option ℕ :=
  if 0 ≤ i ∧ i < (n : ℤ) then some i.toNat
  else if -(n : ℤ) ≤ i ∧ i < 0 then some (i + (n : ℤ)).toNat
  else none

/-- `roi.item(x, y)` on a 2-D array (line 276): the pixel at row `x`,
column `y`, with Python index semantics on both axes. -/
def Img.item (a : Img) (x y : ℤ) : Except PyFault ℕ :=
  match pyIndex a.rows x, pyIndex a.cols y with
  | some i, some j => .ok (a.px i j)
  | _, _ => .error .indexError

/-- `roi2.itemset(i, j, v)` as a functional single-pixel write. -/
def Img.writeOne (a : Img) (i j : ℕ) (v : ℕ) : Img :=
  ⟨a.rows, a.cols, fun r c => if r = i ∧ c = j then v else a.px r c⟩

/-- Python `range(a, b)` over integers. -/
def rangeZ (a b : ℤ) : List ℤ :=
  (List.range (b - a).toNat).map fun (t : ℕ) => a + (t : ℤ)

/-- The destination of the write for the (angle, radius) pair `p`:
row `R - r[0]`, column `int(alpha / theta_inc)` (line 276). -/
def polarKey (r0 : ℤ) (theta_inc : ℚ) (p : ℚ × ℤ) : ℕ × ℕ :=
  ((p.2 - r0).toNat, (pyInt (p.1 / theta_inc)).toNat)

/-- The sampled source row for the pair `p`:
`int(sin(alpha)*R) + x0` with `x0 = int(sin(alpha)*r[0])` (lines 266 and
272; `math.sin(math.radians(.))` is abstracted as `sinD`).  The source
computes `x0` once per angle before the radius loop; the value is
identical. -/
def sampleX (sinD : ℚ → ℚ) (r0 : ℤ) (p : ℚ × ℤ) : ℤ :=
  pyInt (sinD p.1 * (p.2 : ℚ)) + pyInt (sinD p.1 * (r0 : ℚ))

/-- The sampled source column for the pair `p`:
`int(cos(alpha)*R) + y0` with `y0 = int(cos(alpha)*r[0])` (lines 267 and
273). -/
def sampleY (cosD : ℚ → ℚ) (r0 : ℤ) (p : ℚ × ℤ) : ℤ :=
  pyInt (cosD p.1 * (p.2 : ℚ)) + pyInt (cosD p.1 * (r0 : ℚ))

/-- One iteration of the inner loop (lines 271-276): sample
`roi.item(x, y)` and write the value into
`roi2[R - r[0], int(alpha / theta_inc)]`; an out-of-range sample raises
`IndexError`, aborting the transform. -/
def polarStep (roi : Img) (r0 : ℤ) (theta_inc : ℚ) (sinD cosD : ℚ → ℚ)
    (acc : Except PyFault Img) (p : ℚ × ℤ) : Except PyFault Img :=
  match acc with
  | .error e => .error e
  | .ok a =>
    match roi.item (sampleX sinD r0 p) (sampleY cosD r0 p) with
    | .error e => .error e
    | .ok v =>
      .ok (a.writeOne (polarKey r0 theta_inc p).1 (polarKey r0 theta_inc p).2 v)

/-- The (angle, radius) pairs visited by the nested loops of lines
265-276, in iteration order (angle-major). -/
def polarPairs (r : ℤ × ℤ) (theta theta_inc : ℚ) : List (ℚ × ℤ) :=
  (arange theta theta_inc).flatMap fun alpha =>
    (rangeZ r.1 r.2).map fun R => (alpha, R)

/-- `polarTransform(roi, start_point, r, theta, theta_inc)` (lines
255-284): allocate the zero raster of shape
`(r[1] - r[0], int(theta/theta_inc) + 1)` (line 262) and run the nested
sampling loops.  The `start_point` parameter is accepted and never used in
the body, exactly as in the source.  The per-angle `roid` of line 269 is
visualization-only and unused. -/
def polarTransform (roi : Img) (start_point : ℤ × ℤ) (r : ℤ × ℤ)
    (theta theta_inc : ℚ) (sinD cosD : ℚ → ℚ) : Except PyFault Img :=
  (polarPairs r theta theta_inc).foldl (polarStep roi r.1 theta_inc sinD cosD)
    (.ok ⟨(r.2 - r.1).toNat, (pyInt (theta / theta_inc) + 1).toNat, fun _ _ => 0⟩)

/-- Whether a transform result is a raster (no fault raised). -/
def resultOk (e : Except PyFault Img) : Bool :=
  match e with
  | .ok _ => true
  | .error _ => false

/-- The shape of the raster of a successful transform. -/
def shapeOfOk (e : Except PyFault Img) : Option (ℕ × ℕ) :=
  match e with
  | .ok a => some (a.rows, a.cols)
  | .error _ => none

/-- One pixel of the raster of a successful transform. -/
def pxOfOk (e : Except PyFault Img) (i j : ℕ) : Option ℕ :=
  match e with
  | .ok a => some (a.px i j)
  | .error _ => none

/-- Modelled from the spec's words (§4.4), for comparison with the code:
the claimed sampled intensity for angle `alpha` and radius `R` is the
source pixel at `(origin.x + sin(alpha)*R, origin.y + cos(alpha)*R)`,
where `origin` is the `start_point` argument supplied by the caller. -/
def polarClaimValue (roi : Img) (sp : ℤ × ℤ) (alpha : ℚ) (R : ℤ)
    (sinD cosD : ℚ → ℚ) : Except PyFault ℕ :=
  roi.item (sp.1 + pyInt (sinD alpha * (R : ℚ)))
    (sp.2 + pyInt (cosD alpha * (R : ℚ)))

theorem foldl_polarStep_error (roi : Img) (r0 : ℤ) (theta_inc : ℚ)
    (sinD cosD : ℚ → ℚ) (ps : List (ℚ × ℤ)) (e : PyFault) :
    ps.foldl (polarStep roi r0 theta_inc sinD cosD) (.error e) = .error e := by
  induction ps with
  | nil => rfl
  | cons p ps ih => exact ih

theorem polarStep_ok (roi : Img) (r0 : ℤ) (theta_inc : ℚ)
    (sinD cosD : ℚ → ℚ) (p : ℚ × ℤ) (a : Img) (v : ℕ)
    (hitem : roi.item (sampleX sinD r0 p) (sampleY cosD r0 p) = .ok v) :
    polarStep roi r0 theta_inc sinD cosD (.ok a) p =
      .ok (a.writeOne (polarKey r0 theta_inc p).1
        (polarKey r0 theta_inc p).2 v) := by
  unfold polarStep
  rw [hitem]

theorem foldl_polarStep_cons_err (roi : Img) (r0 : ℤ) (theta_inc : ℚ)
    (sinD cosD : ℚ → ℚ) (p : ℚ × ℤ) (ps : List (ℚ × ℤ)) (a : Img)
    (e : PyFault)
    (hitem : roi.item (sampleX sinD r0 p) (sampleY cosD r0 p) = .error e) :
    (p :: ps).foldl (polarStep roi r0 theta_inc sinD cosD) (.ok a) =
      .error e := by
  show ps.foldl (polarStep roi r0 theta_inc sinD cosD)
    (polarStep roi r0 theta_inc sinD cosD (.ok a) p) = .error e
  rw [show polarStep roi r0 theta_inc sinD cosD (.ok a) p = .error e by
    unfold polarStep; rw [hitem]]
  exact foldl_polarStep_error roi r0 theta_inc sinD cosD ps e

/-- A successful fold leaves every pixel whose key no list element writes
at its initial value. -/
theorem foldl_polarStep_px_of_not_written (roi : Img) (r0 : ℤ)
    (theta_inc : ℚ) (sinD cosD : ℚ → ℚ) (ps : List (ℚ × ℤ)) :
    ∀ (a out : Img) (i j : ℕ),
      ps.foldl (polarStep roi r0 theta_inc sinD cosD) (.ok a) = .ok out →
      (∀ p ∈ ps, polarKey r0 theta_inc p ≠ (i, j)) →
      out.px i j = a.px i j := by
  induction ps with
  | nil =>
    intro a out i j hfold _
    cases hfold
    rfl
  | cons p ps ih =>
    intro a out i j hfold hkeys
    rcases hitem : roi.item (sampleX sinD r0 p) (sampleY cosD r0 p) with e | v
    · rw [foldl_polarStep_cons_err roi r0 theta_inc sinD cosD p ps a e hitem]
        at hfold
      exact absurd hfold (by simp)
    · have hfold2 : ps.foldl (polarStep roi r0 theta_inc sinD cosD)
          (.ok (a.writeOne (polarKey r0 theta_inc p).1
            (polarKey r0 theta_inc p).2 v)) = .ok out := by
        rw [← polarStep_ok roi r0 theta_inc sinD cosD p a v hitem]
        exact hfold
      have hrest := ih _ out i j hfold2
        (fun q hq => hkeys q (List.mem_cons_of_mem p hq))
      rw [hrest]
      have hk := hkeys p (List.mem_cons_self p ps)
      show (if i = (polarKey r0 theta_inc p).1 ∧
          j = (polarKey r0 theta_inc p).2 then v else a.px i j) = a.px i j
      rw [if_neg]
      rintro ⟨rfl, rfl⟩
      exact hk rfl

/-- If a fold over `ps1 ++ p :: ps2` succeeds and no element of `ps2`
writes `p`'s key, then `p`'s sample succeeded and the output holds its
value at `p`'s key. -/
theorem foldl_polarStep_px_written (roi : Img) (r0 : ℤ) (theta_inc : ℚ)
    (sinD cosD : ℚ → ℚ) (ps1 ps2 : List (ℚ × ℤ)) (p : ℚ × ℤ) (a out : Img)
    (hfold : (ps1 ++ p :: ps2).foldl (polarStep roi r0 theta_inc sinD cosD)
      (.ok a) = .ok out)
    (hkeys : ∀ q ∈ ps2,
      polarKey r0 theta_inc q ≠ polarKey r0 theta_inc p) :
    ∃ v, roi.item (sampleX sinD r0 p) (sampleY cosD r0 p) = .ok v ∧
      out.px (polarKey r0 theta_inc p).1 (polarKey r0 theta_inc p).2 = v := by
  rw [List.foldl_append] at hfold
  rcases hmid : ps1.foldl (polarStep roi r0 theta_inc sinD cosD) (.ok a)
    with e | a1
  · rw [hmid, foldl_polarStep_error] at hfold
    exact absurd hfold (by simp)
  · rw [hmid] at hfold
    rcases hitem : roi.item (sampleX sinD r0 p) (sampleY cosD r0 p)
      with e | v
    · rw [foldl_polarStep_cons_err roi r0 theta_inc sinD cosD p ps2 a1 e
        hitem] at hfold
      exact absurd hfold (by simp)
    · have hfold2 : ps2.foldl (polarStep roi r0 theta_inc sinD cosD)
          (.ok (a1.writeOne (polarKey r0 theta_inc p).1
            (polarKey r0 theta_inc p).2 v)) = .ok out := by
        rw [← polarStep_ok roi r0 theta_inc sinD cosD p a1 v hitem]
        exact hfold
      refine ⟨v, rfl, ?_⟩
      have hpx := foldl_polarStep_px_of_not_written roi r0 theta_inc sinD
        cosD ps2 _ out (polarKey r0 theta_inc p).1
        (polarKey r0 theta_inc p).2 hfold2
        (fun q hq hqe => hkeys q hq (by rw [hqe]))
      rw [hpx]
      show (if (polarKey r0 theta_inc p).1 = (polarKey r0 theta_inc p).1 ∧
          (polarKey r0 theta_inc p).2 = (polarKey r0 theta_inc p).2
        then v else a1.px _ _) = v
      rw [if_pos ⟨rfl, rfl⟩]

/-- A successful fold preserves the raster shape fixed at allocation. -/
theorem foldl_polarStep_shape (roi : Img) (r0 : ℤ) (theta_inc : ℚ)
    (sinD cosD : ℚ → ℚ) (ps : List (ℚ × ℤ)) :
    ∀ (a out : Img),
      ps.foldl (polarStep roi r0 theta_inc sinD cosD) (.ok a) = .ok out →
      out.rows = a.rows ∧ out.cols = a.cols := by
  induction ps with
  | nil =>
    intro a out h
    cases h
    exact ⟨rfl, rfl⟩
  | cons p ps ih =>
    intro a out h
    rcases hitem : roi.item (sampleX sinD r0 p) (sampleY cosD r0 p)
      with e | v
    · rw [foldl_polarStep_cons_err roi r0 theta_inc sinD cosD p ps a e
        hitem] at h
      exact absurd h (by simp)
    · have h2 : ps.foldl (polarStep roi r0 theta_inc sinD cosD)
          (.ok (a.writeOne (polarKey r0 theta_inc p).1
            (polarKey r0 theta_inc p).2 v)) = .ok out := by
        rw [← polarStep_ok roi r0 theta_inc sinD cosD p a v hitem]
        exact h
      exact ih (a.writeOne (polarKey r0 theta_inc p).1
        (polarKey r0 theta_inc p).2 v) out h2

theorem pyInt_natCast (n : ℕ) : pyInt ((n : ℕ) : ℚ) = n := by
  unfold pyInt
  rw [if_pos (by positivity)]
  exact @Int.floor_natCast ℚ _ _ n

/-- The write column of the `m`-th sampled angle is `m`:
`int((m * theta_inc) / theta_inc) = m` for a nonzero increment. -/
theorem polarKey_col (r0 : ℤ) (theta_inc : ℚ) (hinc : theta_inc ≠ 0)
    (m : ℕ) (R : ℤ) :
    polarKey r0 theta_inc ((m : ℚ) * theta_inc, R) = ((R - r0).toNat, m) := by
  unfold polarKey
  simp only
  rw [mul_div_cancel_right₀ _ hinc, pyInt_natCast]
  simp

theorem arange_getElem (theta theta_inc : ℚ) (m : ℕ)
    (hm : m < (arange theta theta_inc).length) :
    (arange theta theta_inc)[m] = (m : ℚ) * theta_inc := by
  by_cases h : 0 < theta ∧ 0 < theta_inc
  · have he : arange theta theta_inc =
        (List.range (qceil (theta / theta_inc)).toNat).map
          fun (k : ℕ) => (k : ℚ) * theta_inc := by
      unfold arange
      rw [if_pos h]
    simp only [he, List.getElem_map, List.getElem_range]
  · exfalso
    unfold arange at hm
    rw [if_neg h] at hm
    simp at hm

theorem mem_drop_range {n m x : ℕ} (h : x ∈ (List.range n).drop m) :
    m ≤ x := by
  rcases List.mem_iff_getElem.mp h with ⟨i, hi, hx⟩
  rw [List.getElem_drop, List.getElem_range] at hx
  omega

/-- C1 (amended): for the `m`-th sampled angle `alpha = m * theta_inc` and
every radius `R` in `[r.1, r.2)`, a successful transform writes into the
raster cell `(R - r.1, int(alpha/theta_inc)) = (R - r.1, m)` the source
intensity sampled at row `int(sin(alpha)*R) + int(sin(alpha)*r.1)` and
column `int(cos(alpha)*R) + int(cos(alpha)*r.1)` — i.e. with truncation
(not nearest rounding) and with the extra offset `(x0, y0)` of the
`r.1`-ray of the same angle added, while the `start_point` argument is
ignored entirely (the result equals the one for `start_point = (0, 0)`). -/
theorem claim1_polar_sampling_amended (roi : Img) (sp : ℤ × ℤ) (r : ℤ × ℤ)
    (theta theta_inc : ℚ) (sinD cosD : ℚ → ℚ) (m : ℕ) (R : ℤ)
    (hm : m < (arange theta theta_inc).length)
    (hR1 : r.1 ≤ R) (hR2 : R < r.2)
    (hok : resultOk (polarTransform roi sp r theta theta_inc sinD cosD) =
      true) :
    polarTransform roi sp r theta theta_inc sinD cosD =
      polarTransform roi (0, 0) r theta theta_inc sinD cosD ∧
    polarKey r.1 theta_inc ((m : ℚ) * theta_inc, R) = ((R - r.1).toNat, m) ∧
    ∃ out v, polarTransform roi sp r theta theta_inc sinD cosD = .ok out ∧
      roi.item (sampleX sinD r.1 ((m : ℚ) * theta_inc, R))
        (sampleY cosD r.1 ((m : ℚ) * theta_inc, R)) = .ok v ∧
      out.px (R - r.1).toNat m = v := by
  have hpos : 0 < theta ∧ 0 < theta_inc := by
    by_contra hc
    unfold arange at hm
    rw [if_neg hc] at hm
    simp at hm
  have hinc : theta_inc ≠ 0 := ne_of_gt hpos.2
  have hkey := polarKey_col r.1 theta_inc hinc m R
  rcases hres : polarTransform roi sp r theta theta_inc sinD cosD
    with e | out
  · rw [hres] at hok
    exact absurd hok (by simp [resultOk])
  refine ⟨hres.symm, hkey, out, ?_⟩
  -- names for the two index ranges
  set N := (qceil (theta / theta_inc)).toNat with hN
  set NR := (r.2 - r.1).toNat with hNR
  have hAeq : arange theta theta_inc =
      (List.range N).map fun (k : ℕ) => (k : ℚ) * theta_inc := by
    unfold arange
    rw [if_pos hpos]
  have hmN : m < N := by
    rw [hAeq] at hm
    simpa using hm
  set t := (R - r.1).toNat with htdef
  have htN : t < NR := by omega
  -- split the angle indices at m and the radius indices at t
  have hA : List.range N =
      (List.range N).take m ++ m :: (List.range N).drop (m + 1) := by
    have h2 : (List.range N).drop m =
        m :: (List.range N).drop (m + 1) := by
      rw [List.drop_eq_getElem_cons (by simpa using hmN)]
      rw [List.getElem_range]
    conv_lhs => rw [← List.take_append_drop m (List.range N)]
    rw [h2]
  have hRr : List.range NR =
      (List.range NR).take t ++ t :: (List.range NR).drop (t + 1) := by
    have h2 : (List.range NR).drop t =
        t :: (List.range NR).drop (t + 1) := by
      rw [List.drop_eq_getElem_cons (by simpa using htN)]
      rw [List.getElem_range]
    conv_lhs => rw [← List.take_append_drop t (List.range NR)]
    rw [h2]
  have hRt : r.1 + (t : ℤ) = R := by omega
  -- the pair decomposition around the pair (m * theta_inc, R)
  have hsplit : polarPairs r theta theta_inc =
      ((((List.range N).take m).map fun (k : ℕ) => (k : ℚ) * theta_inc).flatMap
        fun alpha => (rangeZ r.1 r.2).map fun R' => (alpha, R')) ++
      ((((List.range NR).take t).map fun (u : ℕ) => r.1 + (u : ℤ)).map
        fun R' => ((m : ℚ) * theta_inc, R')) ++
      (((m : ℚ) * theta_inc, R) ::
        (((((List.range NR).drop (t + 1)).map fun (u : ℕ) => r.1 + (u : ℤ)).map
          fun R' => ((m : ℚ) * theta_inc, R')) ++
        ((((List.range N).drop (m + 1)).map
          fun (k : ℕ) => (k : ℚ) * theta_inc).flatMap
          fun alpha => (rangeZ r.1 r.2).map fun R' => (alpha, R')))) := by
    unfold polarPairs
    rw [hAeq]
    conv_lhs => rw [hA]
    rw [List.map_append, List.map_cons, List.flatMap_append,
      List.flatMap_cons]
    have hmid : (rangeZ r.1 r.2).map
        (fun R' => ((m : ℚ) * theta_inc, R')) =
        ((((List.range NR).take t).map fun (u : ℕ) => r.1 + (u : ℤ)).map
          fun R' => ((m : ℚ) * theta_inc, R')) ++
        (((m : ℚ) * theta_inc, R) ::
          ((((List.range NR).drop (t + 1)).map fun (u : ℕ) => r.1 + (u : ℤ)).map
            fun R' => ((m : ℚ) * theta_inc, R'))) := by
      show (rangeZ r.1 r.2).map _ = _
      rw [show rangeZ r.1 r.2 =
          (List.range NR).map fun (u : ℕ) => r.1 + (u : ℤ) from rfl]
      conv_lhs => rw [hRr]
      rw [List.map_append, List.map_cons, List.map_append, List.map_cons]
      rw [hRt]
    rw [hmid]
    simp [List.append_assoc]
  -- run the fold over the decomposition
  have hfold0 : (polarPairs r theta theta_inc).foldl
      (polarStep roi r.1 theta_inc sinD cosD)
      (.ok ⟨(r.2 - r.1).toNat, (pyInt (theta / theta_inc) + 1).toNat,
        fun _ _ => 0⟩) = .ok out := hres
  rw [hsplit] at hfold0
  have hkeys : ∀ q ∈
      ((((List.range NR).drop (t + 1)).map fun (u : ℕ) => r.1 + (u : ℤ)).map
        fun R' => ((m : ℚ) * theta_inc, R')) ++
      ((((List.range N).drop (m + 1)).map
        fun (k : ℕ) => (k : ℚ) * theta_inc).flatMap
        fun alpha => (rangeZ r.1 r.2).map fun R' => (alpha, R')),
      polarKey r.1 theta_inc q ≠
        polarKey r.1 theta_inc ((m : ℚ) * theta_inc, R) := by
    intro q hq
    rcases List.mem_append.mp hq with hq | hq
    · rcases List.mem_map.mp hq with ⟨R', hR', rfl⟩
      rcases List.mem_map.mp hR' with ⟨u, hu, rfl⟩
      have hut : t + 1 ≤ u := mem_drop_range hu
      rw [hkey, polarKey_col r.1 theta_inc hinc m (r.1 + (u : ℤ))]
      intro hcontra
      have h1 := congrArg Prod.fst hcontra
      simp only at h1
      omega
    · rcases List.mem_flatMap.mp hq with ⟨alpha, halpha, hq2⟩
      rcases List.mem_map.mp halpha with ⟨k, hk, rfl⟩
      rcases List.mem_map.mp hq2 with ⟨R'', _, rfl⟩
      have hkm : m + 1 ≤ k := mem_drop_range hk
      rw [hkey, polarKey_col r.1 theta_inc hinc k R'']
      intro hcontra
      have h2 := congrArg Prod.snd hcontra
      simp only at h2
      omega
  obtain ⟨v, hv, hpx⟩ := foldl_polarStep_px_written roi r.1 theta_inc sinD
    cosD _ _ ((m : ℚ) * theta_inc, R) _ out hfold0 hkeys
  refine ⟨v, rfl, hv, ?_⟩
  rw [hkey] at hpx
  exact hpx

/-- C9 (amended): every successful run of the polar transform produces a
raster of exactly `(r.2 - r.1)` radial rows and
`int(theta / theta_inc) + 1` angular columns — one more column than the
number of angular steps actually sampled whenever `theta_inc` divides
`theta` — and the write loop never resizes the raster allocated at line
262. -/
theorem claim9_polar_raster_shape_amended (roi : Img) (sp : ℤ × ℤ)
    (r : ℤ × ℤ) (theta theta_inc : ℚ) (sinD cosD : ℚ → ℚ)
    (hok : resultOk (polarTransform roi sp r theta theta_inc sinD cosD) =
      true) :
    shapeOfOk (polarTransform roi sp r theta theta_inc sinD cosD) =
      some ((r.2 - r.1).toNat, (pyInt (theta / theta_inc) + 1).toNat) := by
  rcases hres : polarTransform roi sp r theta theta_inc sinD cosD
    with e | out
  · rw [hres] at hok
    exact absurd hok (by simp [resultOk])
  · have hshape := foldl_polarStep_shape roi r.1 theta_inc sinD cosD
      (polarPairs r theta theta_inc)
      ⟨(r.2 - r.1).toNat, (pyInt (theta / theta_inc) + 1).toNat,
        fun _ _ => 0⟩ out hres
    simp only [shapeOfOk]
    rw [hshape.1, hshape.2]

/-- A 1x4 test image whose single row is `(0, 10, 20, 30)`. -/
def cexRoi : Img := ⟨1, 4, fun _ c => 10 * c⟩

/-- Stand-in for `sin(radians(.))` in the concrete runs below: the single
sampled angle is 0 and `sin 0 = 0` exactly. -/
def zeroSin : ℚ → ℚ := fun _ => 0

/-- Stand-in for `cos(radians(.))` in the concrete runs below: the single
sampled angle is 0 and `cos 0 = 1` exactly. -/
def oneCos : ℚ → ℚ := fun _ => 1

/-- The initial zero raster allocated for radii `[1, 3)` and a sweep of 1
degree in steps of 1 degree. -/
def initRaster : Img := ⟨2, 2, fun _ _ => 0⟩

theorem arange_one_one : arange 1 1 = [0] := by
  have h1 : qceil ((1 : ℚ) / 1) = 1 := by norm_num [qceil, Rat.floor]
  unfold arange
  rw [if_pos (by norm_num), h1]
  show List.map (fun (m : ℕ) => (m : ℚ) * 1) [0] = [0]
  simp

theorem rangeZ_one_three : rangeZ 1 3 = [1, 2] := by decide

theorem polarPairs_cex : polarPairs (1, 3) 1 1 = [(0, 1), (0, 2)] := by
  unfold polarPairs
  rw [arange_one_one, rangeZ_one_three]
  rfl

theorem sampleX_cex (p : ℚ × ℤ) : sampleX zeroSin 1 p = 0 := by
  unfold sampleX zeroSin
  norm_num [pyInt, Rat.floor]

theorem pyInt_intCast (z : ℤ) : pyInt ((z : ℤ) : ℚ) = z := by
  unfold pyInt
  by_cases h : (0 : ℚ) ≤ (z : ℚ)
  · rw [if_pos h]
    exact @Int.floor_intCast ℚ _ _ z
  · rw [if_neg h]
    rw [show -((z : ℤ) : ℚ) = ((-z : ℤ) : ℚ) by push_cast; ring]
    rw [show Rat.floor (((-z : ℤ) : ℚ)) = -z from @Int.floor_intCast ℚ _ _ (-z)]
    ring

theorem sampleY_cex (alpha : ℚ) (R : ℤ) :
    sampleY oneCos 1 (alpha, R) = R + 1 := by
  unfold sampleY oneCos
  simp only [one_mul]
  rw [pyInt_intCast, show ((1 : ℤ) : ℚ) = ((1 : ℤ) : ℚ) from rfl, pyInt_intCast]

theorem polarKey_cex_one : polarKey 1 1 ((0 : ℚ), (1 : ℤ)) = (0, 0) := by
  unfold polarKey
  norm_num [pyInt, Rat.floor]

theorem polarKey_cex_two : polarKey 1 1 ((0 : ℚ), (2 : ℤ)) = (1, 0) := by
  unfold polarKey
  norm_num [pyInt, Rat.floor]

/-- The full concrete run behind the C1 and C9 counterexamples and
witnesses: two samples, taken at source columns 2 and 3, written into
raster cells (0, 0) and (1, 0). -/
theorem polar_cex_eval :
    polarTransform cexRoi (0, 0) (1, 3) 1 1 zeroSin oneCos =
      .ok ((initRaster.writeOne 0 0 20).writeOne 1 0 30) := by
  have hitem1 : cexRoi.item (sampleX zeroSin 1 ((0 : ℚ), (1 : ℤ)))
      (sampleY oneCos 1 (0, 1)) = .ok 20 := by
    rw [sampleX_cex, sampleY_cex]
    rfl
  have hitem2 : cexRoi.item (sampleX zeroSin 1 ((0 : ℚ), (2 : ℤ)))
      (sampleY oneCos 1 (0, 2)) = .ok 30 := by
    rw [sampleX_cex, sampleY_cex]
    rfl
  have hstep1 : polarStep cexRoi 1 1 zeroSin oneCos (.ok initRaster) (0, 1) =
      .ok (initRaster.writeOne 0 0 20) := by
    rw [polarStep_ok cexRoi 1 1 zeroSin oneCos (0, 1) initRaster 20 hitem1,
      polarKey_cex_one]
  have hstep2 : polarStep cexRoi 1 1 zeroSin oneCos
      (.ok (initRaster.writeOne 0 0 20)) (0, 2) =
      .ok ((initRaster.writeOne 0 0 20).writeOne 1 0 30) := by
    rw [polarStep_ok cexRoi 1 1 zeroSin oneCos (0, 2)
      (initRaster.writeOne 0 0 20) 30 hitem2, polarKey_cex_two]
  unfold polarTransform
  rw [polarPairs_cex]
  have hc2 : (pyInt ((1 : ℚ) / 1) + 1).toNat = 2 := by
    have hp : pyInt ((1 : ℚ) / 1) = 1 := by norm_num [pyInt, Rat.floor]
    rw [hp]
    decide
  rw [hc2]
  show List.foldl (polarStep cexRoi 1 1 zeroSin oneCos) (.ok initRaster)
    [(0, 1), (0, 2)] = .ok ((initRaster.writeOne 0 0 20).writeOne 1 0 30)
  rw [List.foldl_cons, hstep1, List.foldl_cons, hstep2, List.foldl_nil]

/-- C1 counterexample: radii `[1, 3)`, a single sampled angle 0
(`theta = theta_inc = 1`), source row `(0, 10, 20, 30)`, and
`start_point = (0, 0)`.  The code writes `roi[0, 2] = 20` into raster cell
(0, 0) — radius 1 displaced by the extra offset
`y0 = int(cos(0) * r_min) = 1` — while the claim's formula
`(origin.x + sin(0)*1, origin.y + cos(0)*1)` designates
`roi[0, 1] = 10`. -/
theorem claim1_polar_sampling_cex :
    pxOfOk (polarTransform cexRoi (0, 0) (1, 3) 1 1 zeroSin oneCos) 0 0 =
      some 20 ∧
    polarClaimValue cexRoi (0, 0) 0 1 zeroSin oneCos = .ok 10 ∧
    (20 : ℕ) ≠ 10 := by
  refine ⟨?_, ?_, by decide⟩
  · rw [polar_cex_eval]
    rfl
  · show cexRoi.item ((0 : ℤ) + pyInt ((0 : ℚ) * ((1 : ℤ) : ℚ)))
      ((0 : ℤ) + pyInt ((1 : ℚ) * ((1 : ℤ) : ℚ))) = .ok 10
    have h1 : (0 : ℤ) + pyInt ((0 : ℚ) * ((1 : ℤ) : ℚ)) = 0 := by
      norm_num [pyInt, Rat.floor]
    have h2 : (0 : ℤ) + pyInt ((1 : ℚ) * ((1 : ℤ) : ℚ)) = 1 := by
      norm_num [pyInt, Rat.floor]
    rw [h1, h2]
    rfl

/-- Witness for C1 (amended) at the concrete run of `polar_cex_eval`, with
`start_point = (5, 5)`, angle index 0 and radius 1. -/
theorem claim1_polar_sampling_amended_witness :
    0 < (arange 1 1).length ∧
    resultOk (polarTransform cexRoi (5, 5) (1, 3) 1 1 zeroSin oneCos) =
      true ∧
    (polarTransform cexRoi (5, 5) (1, 3) 1 1 zeroSin oneCos =
        polarTransform cexRoi (0, 0) (1, 3) 1 1 zeroSin oneCos ∧
      polarKey (1, 3).1 1 (((0 : ℕ) : ℚ) * 1, 1) =
        (((1 : ℤ) - (1, 3).1).toNat, 0) ∧
      ∃ out v,
        polarTransform cexRoi (5, 5) (1, 3) 1 1 zeroSin oneCos = .ok out ∧
        cexRoi.item (sampleX zeroSin (1, 3).1 (((0 : ℕ) : ℚ) * 1, 1))
          (sampleY oneCos (1, 3).1 (((0 : ℕ) : ℚ) * 1, 1)) = .ok v ∧
        out.px ((1 : ℤ) - (1, 3).1).toNat 0 = v) := by
  have hlen : 0 < (arange 1 1).length := by
    rw [arange_one_one]
    decide
  have hok : resultOk (polarTransform cexRoi (5, 5) (1, 3) 1 1 zeroSin
      oneCos) = true := by
    show resultOk (polarTransform cexRoi (0, 0) (1, 3) 1 1 zeroSin oneCos) =
      true
    rw [polar_cex_eval]
    rfl
  exact ⟨hlen, hok,
    claim1_polar_sampling_amended cexRoi (5, 5) (1, 3) 1 1 zeroSin oneCos
      0 1 hlen (by decide) (by decide) hok⟩

/-- C9 counterexample: the same concrete run samples exactly one angular
step (`arange` has one element) but the allocated raster has
`int(1/1) + 1 = 2` angular columns — not one column per angular step
actually sampled as claimed. -/
theorem claim9_polar_raster_shape_cex :
    shapeOfOk (polarTransform cexRoi (0, 0) (1, 3) 1 1 zeroSin oneCos) =
      some (2, 2) ∧
    (arange 1 1).length = 1 ∧
    (2 : ℕ) ≠ 1 := by
  refine ⟨?_, ?_, by decide⟩
  · rw [polar_cex_eval]
    rfl
  · rw [arange_one_one]
    rfl

/-- Witness for C9 (amended) at the concrete run of `polar_cex_eval`. -/
theorem claim9_polar_raster_shape_amended_witness :
    resultOk (polarTransform cexRoi (7, 9) (1, 3) 1 1 zeroSin oneCos) =
      true ∧
    shapeOfOk (polarTransform cexRoi (7, 9) (1, 3) 1 1 zeroSin oneCos) =
      some ((((1, 3) : ℤ × ℤ).2 - ((1, 3) : ℤ × ℤ).1).toNat,
        (pyInt ((1 : ℚ) / 1) + 1).toNat) := by
  have hok : resultOk (polarTransform cexRoi (7, 9) (1, 3) 1 1 zeroSin
      oneCos) = true := by
    show resultOk (polarTransform cexRoi (0, 0) (1, 3) 1 1 zeroSin oneCos) =
      true
    rw [polar_cex_eval]
    rfl
  exact ⟨hok, claim9_polar_raster_shape_amended cexRoi (7, 9) (1, 3) 1 1
    zeroSin oneCos hok⟩
